import Mathlib

/-!
Verification of the repository evaluation and selection pipeline
(`src/gitrepo/lib/process.ts`).

The TypeScript core is shallowly embedded here:

* Timestamps (JavaScript `Date.getTime()` values, milliseconds since the
  epoch) are modelled as exact rationals `ℚ`; floating-point arithmetic on
  day counts and scores is idealised as exact rational/real arithmetic.
* `Math.log` / `Math.log10` are modelled by `Real.log` / `Real.logb 10`.
* `Math.round` is modelled by Mathlib's `round` (both round halves up).
* JavaScript's stable `Array.prototype.sort` is modelled with Mathlib's
  stable `List.insertionSort`.
* `String.prototype.toLowerCase` is modelled by mapping `Char.toLower`
  over the characters (the repository only feeds it ASCII names).
* Fallible external data (unparsable commit dates, missing fields) is
  modelled with `Option`.

Field names follow the source where Lean allows it (`end` is a reserved
word, so `ActiveBlock.end` is called `stop` here).
-/

namespace GitRepo

/-- Milliseconds per day, the divisor `1000 * 60 * 60 * 24` used throughout
`process.ts` to convert epoch-millisecond differences to day counts. -/
def msPerDay : ℚ := 1000 * 60 * 60 * 24

/-- Gaps > 30 days between commits start a new active block
(`INACTIVITY_GAP_DAYS` in `process.ts`). -/
def INACTIVITY_GAP_DAYS : ℚ := 30

/-- Repo is considered ongoing if pushed within this many days
(`ONGOING_THRESHOLD_DAYS` in `process.ts`). -/
def ONGOING_THRESHOLD_DAYS : ℚ := 60

lemma msPerDay_pos : 0 < msPerDay := by norm_num [msPerDay]

/-- An active development block (`ActiveBlock` in `types.ts`); the source
field `end` is called `stop` here because `end` is reserved in Lean. -/
structure ActiveBlock where
  start : ℚ
  stop : ℚ
  durationDays : ℚ
  deriving DecidableEq, Repr

/-- Duration assigned when a block is closed:
`Math.max(1, (blockEnd - blockStart) / msPerDay)`. -/
def blockDuration (s e : ℚ) : ℚ := max 1 ((e - s) / msPerDay)

/-- The loop of `buildActiveBlocks` (lines 78-99 of `process.ts`): walk the
ascending-sorted timestamps keeping the current block's start and running
end; a gap strictly greater than the threshold closes the current block and
opens a new one at the next timestamp; the final block is closed at the end.
The imperative loop pushes closed blocks onto an array; this recursion
emits them in the same order. -/
def buildBlocksGo (blockStart blockEnd : ℚ) : List ℚ → List ActiveBlock
  | [] => [⟨blockStart, blockEnd, blockDuration blockStart blockEnd⟩]
  | t :: rest =>
    if (t - blockEnd) / msPerDay > INACTIVITY_GAP_DAYS then
      ⟨blockStart, blockEnd, blockDuration blockStart blockEnd⟩ :: buildBlocksGo t t rest
    else
      buildBlocksGo blockStart t rest

/-- `buildActiveBlocks` from `process.ts`: sort the commit timestamps
ascending, segment them into gap-separated blocks, and return the blocks
together with `activeDays`, the sum of the block durations.  The source
returns `{ blocks: [], activeDays: 0 }` when the input is empty; the sorted
list is empty exactly when the input is, so that guard is the first match
arm here. -/
def buildActiveBlocks (commitDates : List ℚ) : List ActiveBlock × ℚ :=
  match List.insertionSort (· ≤ ·) commitDates with
  | [] => ([], 0)
  | t :: rest =>
    let blocks := buildBlocksGo t t rest
    (blocks, (blocks.map ActiveBlock.durationDays).sum)

lemma buildActiveBlocks_eq_of_sort {dates : List ℚ} {t : ℚ} {rest : List ℚ}
    (h : List.insertionSort (· ≤ ·) dates = t :: rest) :
    buildActiveBlocks dates =
      (buildBlocksGo t t rest, ((buildBlocksGo t t rest).map ActiveBlock.durationDays).sum) := by
  unfold buildActiveBlocks
  rw [h]

lemma buildActiveBlocks_eq_of_sort_nil {dates : List ℚ}
    (h : List.insertionSort (· ≤ ·) dates = []) :
    buildActiveBlocks dates = ([], 0) := by
  unfold buildActiveBlocks
  rw [h]

lemma one_le_blockDuration (s e : ℚ) : 1 ≤ blockDuration s e := le_max_left _ _

/-- The first block emitted by the loop starts at the current block start. -/
lemma buildBlocksGo_head (bs be : ℚ) (l : List ℚ) :
    ∃ e tl, buildBlocksGo bs be l = ActiveBlock.mk bs e (blockDuration bs e) :: tl := by
  induction l generalizing be with
  | nil => exact ⟨be, [], rfl⟩
  | cons t rest ih =>
    by_cases h : (t - be) / msPerDay > INACTIVITY_GAP_DAYS
    · exact ⟨be, buildBlocksGo t t rest, by simp [buildBlocksGo, h]⟩
    · obtain ⟨e, tl, he⟩ := ih t
      exact ⟨e, tl, by simp [buildBlocksGo, h, he]⟩

/-- Every block emitted by the loop has `start ≤ stop` and carries the
duration of its own span, provided the walked timestamps ascend. -/
lemma buildBlocksGo_mem (l : List ℚ) : ∀ bs be, bs ≤ be → List.Chain (· ≤ ·) be l →
    ∀ b ∈ buildBlocksGo bs be l,
      b.start ≤ b.stop ∧ b.durationDays = blockDuration b.start b.stop := by
  induction l with
  | nil =>
    intro bs be hle _ b hb
    simp only [buildBlocksGo, List.mem_singleton] at hb
    subst hb
    exact ⟨hle, rfl⟩
  | cons t rest ih =>
    intro bs be hle hchain b hb
    obtain ⟨hbt, hrest⟩ := List.chain_cons.mp hchain
    by_cases h : (t - be) / msPerDay > INACTIVITY_GAP_DAYS
    · simp only [buildBlocksGo, if_pos h, List.mem_cons] at hb
      rcases hb with hb | hb
      · subst hb
        exact ⟨hle, rfl⟩
      · exact ih t t le_rfl hrest b hb
    · simp only [buildBlocksGo, if_neg h] at hb
      exact ih bs t (hle.trans hbt) hrest b hb

/-- A gap that opens a new block forces the running end strictly below the
next timestamp. -/
lemma lt_of_gap {be t : ℚ} (h : (t - be) / msPerDay > INACTIVITY_GAP_DAYS) : be < t := by
  have hm := msPerDay_pos
  rw [gt_iff_lt, lt_div_iff₀ hm] at h
  have h0 : (0 : ℚ) ≤ INACTIVITY_GAP_DAYS * msPerDay := by
    norm_num [INACTIVITY_GAP_DAYS, msPerDay]
  linarith

/-- Consecutive blocks emitted by the loop are separated: each closes
strictly before the next one starts. -/
lemma buildBlocksGo_chain' (l : List ℚ) : ∀ bs be, List.Chain (· ≤ ·) be l →
    List.Chain' (fun b b' : ActiveBlock => b.stop < b'.start) (buildBlocksGo bs be l) := by
  induction l with
  | nil =>
    intro bs be _
    simp [buildBlocksGo]
  | cons t rest ih =>
    intro bs be hchain
    obtain ⟨hbt, hrest⟩ := List.chain_cons.mp hchain
    by_cases h : (t - be) / msPerDay > INACTIVITY_GAP_DAYS
    · obtain ⟨e, tl, he⟩ := buildBlocksGo_head t t rest
      simp only [buildBlocksGo, if_pos h]
      rw [he]
      refine List.chain'_cons.mpr ⟨lt_of_gap h, ?_⟩
      rw [← he]
      exact ih t t hrest
    · simp only [buildBlocksGo, if_neg h]
      exact ih bs t hrest

/-- In a chain of separated blocks whose members all satisfy
`start ≤ stop`, the head closes strictly before every later block starts. -/
lemma chain'_rel_head (a : ActiveBlock) (l : List ActiveBlock)
    (hc : List.Chain' (fun b b' : ActiveBlock => b.stop < b'.start) (a :: l))
    (hm : ∀ b ∈ l, b.start ≤ b.stop) :
    ∀ b ∈ l, a.stop < b.start := by
  induction l generalizing a with
  | nil => intro b hb; cases hb
  | cons c l' ih =>
    intro b hb
    have hac : a.stop < c.start := (List.chain'_cons.mp hc).1
    have hc' : List.Chain' (fun b b' : ActiveBlock => b.stop < b'.start) (c :: l') :=
      (List.chain'_cons.mp hc).2
    rcases List.mem_cons.mp hb with hb | hb
    · subst hb; exact hac
    · have hcs : c.start ≤ c.stop := hm c (List.mem_cons_self _ _)
      have := ih c hc' (fun b hb => hm b (List.mem_cons_of_mem _ hb)) b hb
      linarith

/-- Separation of consecutive blocks upgrades to pairwise separation when
every block spans forward in time. -/
lemma chain'_pairwise_blocks (l : List ActiveBlock)
    (hc : List.Chain' (fun b b' : ActiveBlock => b.stop < b'.start) l)
    (hm : ∀ b ∈ l, b.start ≤ b.stop) :
    List.Pairwise (fun b b' : ActiveBlock => b.stop < b'.start) l := by
  induction l with
  | nil => simp
  | cons a l ih =>
    have hc' : List.Chain' (fun b b' : ActiveBlock => b.stop < b'.start) l := hc.tail
    refine List.pairwise_cons.mpr ⟨?_, ih hc' (fun b hb => hm b (List.mem_cons_of_mem _ hb))⟩
    exact chain'_rel_head a l hc (fun b hb => hm b (List.mem_cons_of_mem _ hb))

lemma sorted_cons_chain {t : ℚ} {rest : List ℚ}
    (h : List.Sorted (· ≤ ·) (t :: rest)) : List.Chain (· ≤ ·) t rest :=
  List.Pairwise.chain' h

/-- Claim C1: for every input list of commit timestamps, the block list
returned by `buildActiveBlocks` is chronologically ordered and pairwise
non-overlapping (each block closes strictly before the next opens, and each
block spans forward in time), every block has `durationDays ≥ 1`, and the
returned `activeDays` equals the sum of the `durationDays` of all blocks. -/
theorem claim1_active_blocks_ordered_disjoint (dates : List ℚ) :
    List.Pairwise (fun b b' : ActiveBlock => b.stop < b'.start) (buildActiveBlocks dates).1 ∧
    (∀ b ∈ (buildActiveBlocks dates).1, b.start ≤ b.stop ∧ 1 ≤ b.durationDays) ∧
    (buildActiveBlocks dates).2 =
      ((buildActiveBlocks dates).1.map ActiveBlock.durationDays).sum := by
  cases h : List.insertionSort (· ≤ ·) dates with
  | nil =>
    rw [buildActiveBlocks_eq_of_sort_nil h]
    simp
  | cons t rest =>
    have hsorted : List.Sorted (· ≤ ·) (t :: rest) := by
      rw [← h]; exact List.sorted_insertionSort _ dates
    have hchain : List.Chain (· ≤ ·) t rest := sorted_cons_chain hsorted
    rw [buildActiveBlocks_eq_of_sort h]
    refine ⟨?_, ?_, rfl⟩
    · exact chain'_pairwise_blocks _ (buildBlocksGo_chain' rest t t hchain)
        (fun b hb => (buildBlocksGo_mem rest t t le_rfl hchain b hb).1)
    · intro b hb
      obtain ⟨h1, h2⟩ := buildBlocksGo_mem rest t t le_rfl hchain b hb
      exact ⟨h1, h2 ▸ one_le_blockDuration _ _⟩

/-- Witness for C1 at the concrete input `[0]`. -/
theorem claim1_witness :
    (ActiveBlock.mk 0 0 (blockDuration 0 0)) ∈ (buildActiveBlocks [0]).1 ∧
    ((ActiveBlock.mk 0 0 (blockDuration 0 0)).start ≤ (ActiveBlock.mk 0 0 (blockDuration 0 0)).stop ∧
      1 ≤ (ActiveBlock.mk 0 0 (blockDuration 0 0)).durationDays) :=
  ⟨List.mem_cons_self _ _,
    (claim1_active_blocks_ordered_disjoint [0]).2.1 _ (List.mem_cons_self _ _)⟩

/-- The timestamps at which the loop opens a new block: those whose gap to
the previous timestamp strictly exceeds the threshold. -/
def newBlockStarts (prev : ℚ) : List ℚ → List ℚ
  | [] => []
  | t :: rest =>
    if (t - prev) / msPerDay > INACTIVITY_GAP_DAYS then t :: newBlockStarts t rest
    else newBlockStarts t rest

/-- The block starts produced by the loop are the initial timestamp
followed by the gap-opening timestamps. -/
lemma buildBlocksGo_map_start (l : List ℚ) : ∀ bs be,
    (buildBlocksGo bs be l).map ActiveBlock.start = bs :: newBlockStarts be l := by
  induction l with
  | nil => intro bs be; simp [buildBlocksGo, newBlockStarts]
  | cons t rest ih =>
    intro bs be
    by_cases h : (t - be) / msPerDay > INACTIVITY_GAP_DAYS
    · simp [buildBlocksGo, newBlockStarts, h, ih t t]
    · simp [buildBlocksGo, newBlockStarts, h, ih bs t]

/-- `newBlockStarts` is the second component of the consecutive pairs whose
gap strictly exceeds the threshold. -/
lemma newBlockStarts_eq_filter (l : List ℚ) : ∀ prev,
    newBlockStarts prev l =
      (((prev :: l).zip l).filter
        (fun p => decide (INACTIVITY_GAP_DAYS < (p.2 - p.1) / msPerDay))).map Prod.snd := by
  induction l with
  | nil => intro prev; simp [newBlockStarts]
  | cons t rest ih =>
    intro prev
    by_cases h : (t - prev) / msPerDay > INACTIVITY_GAP_DAYS
    · simp [newBlockStarts, h, List.zip_cons_cons, List.filter_cons, ih t]
    · simp [newBlockStarts, h, List.zip_cons_cons, List.filter_cons, ih t]

/-- Claim C2: in `buildActiveBlocks`, for every pair of consecutive
timestamps of the ascending-sorted input, a gap at most the 30-day
threshold opens no new block, and a gap strictly greater than the threshold
opens exactly one new block at the later timestamp: the block starts are
the first sorted timestamp followed by exactly the later elements of the
gap-exceeding consecutive pairs, and the number of blocks is one more than
the number of gap-exceeding consecutive pairs. -/
theorem claim2_gap_threshold_blocks (dates : List ℚ) (t : ℚ) (rest : List ℚ)
    (h : List.insertionSort (· ≤ ·) dates = t :: rest) :
    (buildActiveBlocks dates).1.map ActiveBlock.start =
      t :: (((t :: rest).zip rest).filter
        (fun p => decide (INACTIVITY_GAP_DAYS < (p.2 - p.1) / msPerDay))).map Prod.snd ∧
    (buildActiveBlocks dates).1.length =
      1 + ((t :: rest).zip rest).countP
        (fun p => decide (INACTIVITY_GAP_DAYS < (p.2 - p.1) / msPerDay)) := by
  rw [buildActiveBlocks_eq_of_sort h]
  have hmap := buildBlocksGo_map_start rest t t
  have hstarts := newBlockStarts_eq_filter rest t
  constructor
  · rw [hmap, hstarts]
  · have hlen : (buildBlocksGo t t rest).length =
        ((buildBlocksGo t t rest).map ActiveBlock.start).length := by
      rw [List.length_map]
    rw [hlen, hmap, hstarts]
    simp [List.countP_eq_length_filter, Nat.add_comm]

/-- Witness for C2 at the concrete input `[0, 40 days]`: the sorted input
has one consecutive pair, its gap exceeds the threshold, and two blocks
result. -/
theorem claim2_witness :
    (buildActiveBlocks [0, 40 * msPerDay]).1.map ActiveBlock.start =
      (0 : ℚ) :: ((((0 : ℚ) :: [40 * msPerDay]).zip [40 * msPerDay]).filter
        (fun p => decide (INACTIVITY_GAP_DAYS < (p.2 - p.1) / msPerDay))).map Prod.snd ∧
    (buildActiveBlocks [0, 40 * msPerDay]).1.length =
      1 + (((0 : ℚ) :: [40 * msPerDay]).zip [40 * msPerDay]).countP
        (fun p => decide (INACTIVITY_GAP_DAYS < (p.2 - p.1) / msPerDay)) :=
  claim2_gap_threshold_blocks [0, 40 * msPerDay] 0 [40 * msPerDay]
    (by norm_num [List.insertionSort, List.orderedInsert, msPerDay])

/-- Claim C9: `buildActiveBlocks` depends only on the multiset of input
timestamps: permuting the input leaves the block list and `activeDays`
unchanged. -/
theorem claim9_permutation_invariant (d₁ d₂ : List ℚ) (h : d₁.Perm d₂) :
    buildActiveBlocks d₁ = buildActiveBlocks d₂ := by
  have hs : List.insertionSort (· ≤ ·) d₁ = List.insertionSort (· ≤ ·) d₂ :=
    List.eq_of_perm_of_sorted
      (((List.perm_insertionSort _ d₁).trans h).trans (List.perm_insertionSort _ d₂).symm)
      (List.sorted_insertionSort _ d₁) (List.sorted_insertionSort _ d₂)
  unfold buildActiveBlocks
  rw [hs]

/-- Witness for C9 at the concrete inputs `[0, 1]` and `[1, 0]`. -/
theorem claim9_witness :
    buildActiveBlocks [(0 : ℚ), 1] = buildActiveBlocks [(1 : ℚ), 0] :=
  claim9_permutation_invariant [0, 1] [1, 0] (List.Perm.swap 1 0 [])

/-- JavaScript `String.prototype.toLowerCase`, modelled by mapping
`Char.toLower` over the characters (the repository only feeds it ASCII
repository and account names). -/
def toLowerStr (s : String) : String := String.mk (s.data.map Char.toLower)

/-- JavaScript `String.prototype.includes`, modelled via `splitOn`: a
substring occurs in `s` exactly when splitting `s` on it yields more than
one piece. -/
def strIncludes (s pat : String) : Bool := decide (1 < (s.splitOn pat).length)

/-- The snapshot fields of a repository consumed by the core (`GitHubRepo`
in `types.ts`).  ISO timestamp strings are modelled as already-parsed epoch
milliseconds; `open_issues_count` is optional because the source reads it
with `?? 0`. -/
structure GitHubRepo where
  name : String
  created_at : ℚ
  pushed_at : ℚ
  fork : Bool
  archived : Bool
  size : ℕ
  stargazers_count : ℕ
  forks_count : ℕ
  has_issues : Bool
  has_projects : Bool
  has_wiki : Bool
  open_issues_count : Option ℕ
  license : Option String
  description : Option String
  html_url : String
  deriving DecidableEq, Repr

/-- `hardFilterRepos` from `process.ts`: exclude a repo if its lowercased
name equals the lowercased username, it is a fork, it is archived, or its
size is below 100 KB. -/
def hardFilterRepos (repos : List GitHubRepo) (username : String) : List GitHubRepo :=
  let lowerUsername := toLowerStr username
  repos.filter fun repo =>
    if toLowerStr repo.name = lowerUsername then false
    else if repo.fork then false
    else if repo.archived then false
    else if repo.size < 100 then false
    else true

/-- Claim C5: the elimination filter returns exactly the sublist of
repositories that are not named case-insensitively equal to the account
name, not forks, not archived, and not below the 100 KB size floor; any one
failing condition removes the repository, and survivors keep their original
order (the result is a filter of the input, hence a sublist). -/
theorem claim5_hard_filter (repos : List GitHubRepo) (username : String) :
    hardFilterRepos repos username =
      repos.filter (fun r =>
        decide (¬ toLowerStr r.name = toLowerStr username) && !r.fork && !r.archived &&
          decide (100 ≤ r.size)) ∧
    (hardFilterRepos repos username).Sublist repos ∧
    ∀ r, (r ∈ hardFilterRepos repos username ↔
      r ∈ repos ∧ ¬ toLowerStr r.name = toLowerStr username ∧ r.fork = false ∧
        r.archived = false ∧ 100 ≤ r.size) := by
  have hpred : ∀ r : GitHubRepo,
      (if toLowerStr r.name = toLowerStr username then false
        else if r.fork then false
        else if r.archived then false
        else if r.size < 100 then false
        else true) =
      (decide (¬ toLowerStr r.name = toLowerStr username) && !r.fork && !r.archived &&
        decide (100 ≤ r.size)) := by
    intro r
    by_cases h1 : toLowerStr r.name = toLowerStr username <;>
      cases hf : r.fork <;> cases ha : r.archived <;>
        by_cases h2 : r.size < 100 <;>
          simp [h1, h2, Nat.not_lt.mp, Nat.not_lt, Nat.not_le]
  have heq : hardFilterRepos repos username =
      repos.filter (fun r =>
        decide (¬ toLowerStr r.name = toLowerStr username) && !r.fork && !r.archived &&
          decide (100 ≤ r.size)) := by
    unfold hardFilterRepos
    exact List.filter_congr (fun r _ => hpred r)
  refine ⟨heq, ?_, ?_⟩
  · rw [heq]; exact List.filter_sublist _
  · intro r
    rw [heq, List.mem_filter]
    simp [Nat.not_lt, and_assoc]

/-- Witness for C5 at a concrete input: a 150 KB non-fork, non-archived
repository named differently from the account survives the filter. -/
theorem claim5_witness :
    (hardFilterRepos [] "user").Sublist [] ∧
    ((⟨"proj", 0, 0, false, false, 150, 0, 0, false, false, false, none, none, none,
        "u"⟩ : GitHubRepo) ∈ hardFilterRepos [⟨"proj", 0, 0, false, false, 150, 0, 0,
        false, false, false, none, none, none, "u"⟩] "user" ↔ True) :=
  ⟨(claim5_hard_filter [] "user").2.1, by
    rw [(claim5_hard_filter [⟨"proj", 0, 0, false, false, 150, 0, 0, false, false,
      false, none, none, none, "u"⟩] "user").2.2]
    simp
    decide⟩

/-- One fetched commit record (`{ date: string; message: string }` in the
source).  The ISO date string is modelled as its parsed timestamp; `none`
models a date that `new Date(...)` fails to parse (`NaN`). -/
structure CommitRecord where
  date : Option ℚ
  message : String
  deriving DecidableEq, Repr

/-- README descriptor returned by the enrichment fetch (`exists` is
reserved in Lean, hence `exists_`). -/
structure ReadmeInfo where
  exists_ : Bool
  length : ℕ
  hasUsageSection : Bool
  deriving DecidableEq, Repr

/-- One root-directory listing entry (`{ name, type }`). -/
structure RootItem where
  name : String
  type : String
  deriving DecidableEq, Repr

/-- The per-repository enrichment bundle fetched in `processRepos`; the
language map is a list of (language, bytes) entries in object-iteration
order. -/
structure EnrichData where
  commits : List CommitRecord
  languages : List (String × ℕ)
  readmeInfo : ReadmeInfo
  tagsCount : ℕ
  rootContents : List RootItem
  deriving DecidableEq, Repr

/-- The valid (parseable) commit timestamps:
`commits.map((c) => new Date(c.date)).filter((d) => !isNaN(...))`. -/
def validCommitDates (commits : List CommitRecord) : List ℚ :=
  commits.filterMap CommitRecord.date

/-- The noise-pattern test of `scoreCommitQuality`:
`/^(\.+|x+|a+|test\d*|wip|tmp|asdf|qwer|aaa|bbb|zzz)$/i`. -/
def isNoise (s : String) : Bool :=
  let l := toLowerStr s
  (!l.isEmpty && l.all (fun c => c == '.')) ||
  (!l.isEmpty && l.all (fun c => c == 'x')) ||
  (!l.isEmpty && l.all (fun c => c == 'a')) ||
  (l.startsWith ("test") && (l.drop 4).all Char.isDigit) ||
  l == "wip" || l == "tmp" || l == "asdf" || l == "qwer" ||
  l == "aaa" || l == "bbb" || l == "zzz"

/-- The meaningful-commit-message test of `scoreCommitQuality` (lines
226-240): first line at least 3 characters, not matching the noise
pattern, and either at least 10 characters or containing a colon or a
space. -/
def isMeaningful (message : String) : Bool :=
  let firstLine := ((message.splitOn ("\n")).headD "").trim
  if firstLine.length < 3 then false
  else if isNoise firstLine then false
  else decide (10 ≤ firstLine.length) || firstLine.contains ':' || firstLine.contains ' '

/-- Number of distinct calendar days touched by the given timestamps:
`new Set(dates.map((d) => Math.floor(d / msPerDay))).size`. -/
def distinctDayCount (dates : List ℚ) : ℕ :=
  ((dates.map (fun d => ⌊d / msPerDay⌋)).dedup).length

/-- The time-spread component of `scoreCommitQuality` (lines 247-257): it
is bucketed on the number of distinct days only when at least two valid
dates exist, and stays 0 otherwise. -/
def timeSpreadScore (dates : List ℚ) : ℚ :=
  if 2 ≤ dates.length then
    let uniqueDays := distinctDayCount dates
    if 30 ≤ uniqueDays then 1
    else if 14 ≤ uniqueDays then 0.8
    else if 7 ≤ uniqueDays then 0.6
    else if 3 ≤ uniqueDays then 0.4
    else 0.2
  else 0

/-- `scoreCommitQuality` from `process.ts`: 0 for an empty commit list,
otherwise 0.5 × meaningful-message ratio + 0.3 × time spread +
0.2 × releases indicator. -/
def scoreCommitQuality (commits : List CommitRecord) (tagsCount : ℕ) : ℚ :=
  if commits.length = 0 then 0
  else
    let meaningfulCount := commits.countP (fun c => isMeaningful c.message)
    let meaningfulRatio : ℚ := (meaningfulCount : ℚ) / (commits.length : ℚ)
    let timeSpread := timeSpreadScore (validCommitDates commits)
    let releasesScore : ℚ := if 0 < tagsCount then 1 else 0
    meaningfulRatio * 0.5 + timeSpread * 0.3 + releasesScore * 0.2

lemma distinctDayCount_le_length (dates : List ℚ) : distinctDayCount dates ≤ dates.length := by
  unfold distinctDayCount
  calc ((dates.map (fun d => ⌊d / msPerDay⌋)).dedup).length
      ≤ (dates.map (fun d => ⌊d / msPerDay⌋)).length :=
        (List.dedup_sublist _).length_le
    _ = dates.length := List.length_map _ _

/-- Claim C6 (corrected): the time-spread component is bucketed on the
number of distinct calendar days — 0.2 below 3 days, 0.4 from 3, 0.6 from
7, 0.8 from 14, and 1.0 from 30 — but only when at least two valid commit
dates exist; with fewer than two valid dates the component is 0 (not 0.2).
It enters the commit-quality sub-score with factor 0.3. -/
theorem claim6_time_spread_buckets (commits : List CommitRecord) (tagsCount : ℕ) :
    (commits ≠ [] → scoreCommitQuality commits tagsCount =
      (commits.countP (fun c => isMeaningful c.message) : ℚ) / (commits.length : ℚ) * 0.5 +
        timeSpreadScore (validCommitDates commits) * 0.3 +
        (if 0 < tagsCount then (1 : ℚ) else 0) * 0.2) ∧
    ((validCommitDates commits).length < 2 →
      timeSpreadScore (validCommitDates commits) = 0) ∧
    (2 ≤ (validCommitDates commits).length →
      distinctDayCount (validCommitDates commits) < 3 →
      timeSpreadScore (validCommitDates commits) = 0.2) ∧
    (3 ≤ distinctDayCount (validCommitDates commits) →
      distinctDayCount (validCommitDates commits) < 7 →
      timeSpreadScore (validCommitDates commits) = 0.4) ∧
    (7 ≤ distinctDayCount (validCommitDates commits) →
      distinctDayCount (validCommitDates commits) < 14 →
      timeSpreadScore (validCommitDates commits) = 0.6) ∧
    (14 ≤ distinctDayCount (validCommitDates commits) →
      distinctDayCount (validCommitDates commits) < 30 →
      timeSpreadScore (validCommitDates commits) = 0.8) ∧
    (30 ≤ distinctDayCount (validCommitDates commits) →
      timeSpreadScore (validCommitDates commits) = 1) := by
  set dates := validCommitDates commits with hdates
  refine ⟨?_, ?_, ?_, ?_, ?_, ?_, ?_⟩
  · intro h
    have hlen : commits.length ≠ 0 := by
      simpa [List.length_eq_zero] using h
    simp only [scoreCommitQuality, if_neg hlen, hdates]
  · intro h
    simp only [timeSpreadScore, if_neg (by omega : ¬ 2 ≤ dates.length)]
  · intro h2 h3
    have hlen : 2 ≤ dates.length := h2
    simp only [timeSpreadScore, if_pos hlen]
    rw [if_neg (by omega), if_neg (by omega), if_neg (by omega), if_neg (by omega)]
  · intro h3 h7
    have hlen : 2 ≤ dates.length := le_trans (by omega) (distinctDayCount_le_length dates)
    simp only [timeSpreadScore, if_pos hlen]
    rw [if_neg (by omega), if_neg (by omega), if_neg (by omega), if_pos (by omega)]
  · intro h7 h14
    have hlen : 2 ≤ dates.length := le_trans (by omega) (distinctDayCount_le_length dates)
    simp only [timeSpreadScore, if_pos hlen]
    rw [if_neg (by omega), if_neg (by omega), if_pos (by omega)]
  · intro h14 h30
    have hlen : 2 ≤ dates.length := le_trans (by omega) (distinctDayCount_le_length dates)
    simp only [timeSpreadScore, if_pos hlen]
    rw [if_neg (by omega), if_pos (by omega)]
  · intro h30
    have hlen : 2 ≤ dates.length := le_trans (by omega) (distinctDayCount_le_length dates)
    simp only [timeSpreadScore, if_pos hlen]
    rw [if_pos (by omega)]

/-- A single commit with a valid date and a meaningful message; on it the
original claim predicts a 0.2 time-spread component but the code yields 0. -/
def commitsC6 : List CommitRecord := [⟨some 0, "hello world"⟩]

/-- Counterexample to C6 as stated: `commitsC6` is a non-empty commit list
whose valid dates touch exactly one distinct day (fewer than 3), yet the
time-spread component is 0, not the 0.2 bucket value the claim asserts. -/
theorem claim6_counterexample :
    commitsC6 ≠ [] ∧
    distinctDayCount (validCommitDates commitsC6) = 1 ∧
    timeSpreadScore (validCommitDates commitsC6) = 0 ∧
    timeSpreadScore (validCommitDates commitsC6) ≠ 0.2 := by
  have hv : validCommitDates commitsC6 = [0] := by
    simp [validCommitDates, commitsC6]
  refine ⟨by simp [commitsC6], ?_, ?_, ?_⟩
  · rw [hv]
    norm_num [distinctDayCount, msPerDay]
  · rw [hv]
    simp [timeSpreadScore]
  · rw [hv]
    simp only [timeSpreadScore]
    norm_num

lemma witnessDaysC6 :
    distinctDayCount (validCommitDates [⟨some 0, "a"⟩, ⟨some 1, "b"⟩]) < 3 := by
  have hv : validCommitDates [⟨some 0, "a"⟩, ⟨some 1, "b"⟩] = [0, 1] := by
    simp [validCommitDates]
  have hm : (([0, 1] : List ℚ).map (fun d => ⌊d / msPerDay⌋)) = [0, 0] := by
    norm_num [msPerDay]
  rw [hv]
  unfold distinctDayCount
  rw [hm]
  decide

/-- Witness for the corrected C6: two commits on the same calendar day give
two valid dates touching one distinct day, and the component is 0.2. -/
theorem claim6_witness :
    2 ≤ (validCommitDates [⟨some 0, "a"⟩, ⟨some 1, "b"⟩]).length ∧
    distinctDayCount (validCommitDates [⟨some 0, "a"⟩, ⟨some 1, "b"⟩]) < 3 ∧
    timeSpreadScore (validCommitDates [⟨some 0, "a"⟩, ⟨some 1, "b"⟩]) = 0.2 :=
  ⟨by simp [validCommitDates],
    witnessDaysC6,
    (claim6_time_spread_buckets [⟨some 0, "a"⟩, ⟨some 1, "b"⟩] 0).2.2.1
      (by simp [validCommitDates])
      witnessDaysC6⟩

/-- `scoreDocumentation` from `process.ts`: README existence (0.4),
bucketed README length (0.3), usage section (0.2), license (0.1). -/
def scoreDocumentation (readmeExists : Bool) (readmeLength : ℕ)
    (hasUsageSection hasLicense : Bool) : ℚ :=
  let readmeExistsScore : ℚ := if readmeExists then 1 else 0
  let readmeLengthScore : ℚ :=
    if 2000 ≤ readmeLength then 1
    else if 1000 ≤ readmeLength then 0.8
    else if 500 ≤ readmeLength then 0.6
    else if 200 ≤ readmeLength then 0.3
    else 0
  let usageSectionScore : ℚ := if hasUsageSection then 1 else 0
  let licenseScore : ℚ := if hasLicense then 1 else 0
  readmeExistsScore * 0.4 + readmeLengthScore * 0.3 +
    usageSectionScore * 0.2 + licenseScore * 0.1

/-- `scoreCompleteness` from `process.ts`: the fraction of four structural
checks (build manifest; container/CI config; ignore file; env/config
artifact) that pass. -/
def scoreCompleteness (rootFiles rootDirs : List String) : ℚ :=
  let checks : List Bool := [
    rootFiles.any (fun f =>
      (["package.json", "pom.xml", "setup.py", "requirements.txt", "go.mod",
        "cargo.toml", "build.gradle", "gemfile", "pyproject.toml",
        "composer.json", "mix.exs", "build.sbt", "deno.json"] : List String).contains f),
    (rootFiles.any (fun f =>
      (["dockerfile", "docker-compose.yml", "docker-compose.yaml", "makefile",
        "justfile", "cmakelists.txt", "jenkinsfile", ".gitlab-ci.yml",
        "vercel.json", "netlify.toml", "fly.toml", "render.yaml",
        "procfile"] : List String).contains f) ||
      rootDirs.contains (".github") || rootDirs.contains (".circleci")),
    rootFiles.contains (".gitignore"),
    (rootFiles.any (fun f => f.startsWith (".env") || strIncludes f ("config")) ||
      rootDirs.any (fun d =>
        (["config", "configuration", "settings"] : List String).contains d))]
  (checks.countP id : ℚ) / (checks.length : ℚ)

/-- `scoreCodeQuality` from `process.ts`: conventional source folder (0.4),
tests (0.3), lint/format config (0.3). -/
def scoreCodeQuality (rootFiles rootDirs : List String) : ℚ :=
  let hasStructure := rootDirs.any (fun d =>
    (["src", "lib", "app", "pkg", "internal", "cmd", "core",
      "modules", "packages", "components", "services"] : List String).contains d)
  let hasTests := rootDirs.any (fun d =>
      (["tests", "test", "__tests__", "spec", "testing", "e2e",
        "cypress"] : List String).contains d) ||
    rootFiles.any (fun f => strIncludes f (".test.") || strIncludes f (".spec."))
  let hasLintConfig := rootFiles.any (fun f =>
    f.startsWith (".eslint") || f.startsWith (".prettier") ||
    f.startsWith ("eslint") || f.startsWith ("prettier") ||
    f == ".flake8" || f == "tslint.json" || f == ".editorconfig" ||
    f == "biome.json" || f.startsWith (".stylelint") || f == "rustfmt.toml" ||
    f == ".rubocop.yml" || f == ".clang-format" || f == "dprint.json")
  (if hasStructure then (1 : ℚ) else 0) * 0.4 +
    (if hasTests then (1 : ℚ) else 0) * 0.3 +
    (if hasLintConfig then (1 : ℚ) else 0) * 0.3

/-- `scoreMaintenance` from `process.ts`; `Date.now()` is passed in
explicitly as `now`. -/
def scoreMaintenance (now pushedAt : ℚ) (hasIssues : Bool)
    (openIssuesCount : ℕ) : ℚ :=
  let daysSincePush := (now - pushedAt) / msPerDay
  let recentActivityScore : ℚ :=
    if daysSincePush < 30 then 1
    else if daysSincePush < 90 then 0.8
    else if daysSincePush < 180 then 0.6
    else if daysSincePush < 365 then 0.4
    else 0.2
  let issuesHealth : ℚ :=
    if hasIssues then
      if openIssuesCount ≤ 10 then 1
      else if openIssuesCount ≤ 50 then 0.6
      else 0.3
    else 0
  recentActivityScore * 0.6 + issuesHealth * 0.4

/-- `scoreStars` from `process.ts`: 0 when either count is zero, otherwise
`Math.log(stars + 1) / Math.log(maxStars + 1)`. -/
noncomputable def scoreStars (stars maxStars : ℕ) : ℝ :=
  if maxStars = 0 ∨ stars = 0 then 0
  else Real.log ((stars : ℝ) + 1) / Real.log ((maxStars : ℝ) + 1)

/-- `scoreForks` from `process.ts`: the same log-ratio transform on fork
counts. -/
noncomputable def scoreForks (forks maxForks : ℕ) : ℝ :=
  if maxForks = 0 ∨ forks = 0 then 0
  else Real.log ((forks : ℝ) + 1) / Real.log ((maxForks : ℝ) + 1)

lemma scoreDocumentation_bounds (readmeExists : Bool) (readmeLength : ℕ)
    (hasUsageSection hasLicense : Bool) :
    0 ≤ scoreDocumentation readmeExists readmeLength hasUsageSection hasLicense ∧
    scoreDocumentation readmeExists readmeLength hasUsageSection hasLicense ≤ 1 := by
  simp only [scoreDocumentation]
  split_ifs <;> constructor <;> norm_num

lemma scoreCompleteness_bounds (rootFiles rootDirs : List String) :
    0 ≤ scoreCompleteness rootFiles rootDirs ∧ scoreCompleteness rootFiles rootDirs ≤ 1 := by
  unfold scoreCompleteness
  constructor
  · positivity
  · rw [div_le_one (by norm_num)]
    have h := List.countP_le_length (l :=
      [rootFiles.any (fun f =>
        (["package.json", "pom.xml", "setup.py", "requirements.txt", "go.mod",
          "cargo.toml", "build.gradle", "gemfile", "pyproject.toml",
          "composer.json", "mix.exs", "build.sbt", "deno.json"] : List String).contains f),
      (rootFiles.any (fun f =>
        (["dockerfile", "docker-compose.yml", "docker-compose.yaml", "makefile",
          "justfile", "cmakelists.txt", "jenkinsfile", ".gitlab-ci.yml",
          "vercel.json", "netlify.toml", "fly.toml", "render.yaml",
          "procfile"] : List String).contains f) ||
        rootDirs.contains (".github") || rootDirs.contains (".circleci")),
      rootFiles.contains (".gitignore"),
      (rootFiles.any (fun f => f.startsWith (".env") || strIncludes f ("config")) ||
        rootDirs.any (fun d =>
          (["config", "configuration", "settings"] : List String).contains d))]) id
    exact_mod_cast h

lemma scoreCodeQuality_bounds (rootFiles rootDirs : List String) :
    0 ≤ scoreCodeQuality rootFiles rootDirs ∧ scoreCodeQuality rootFiles rootDirs ≤ 1 := by
  simp only [scoreCodeQuality]
  split_ifs <;> constructor <;> norm_num

lemma timeSpreadScore_bounds (dates : List ℚ) :
    0 ≤ timeSpreadScore dates ∧ timeSpreadScore dates ≤ 1 := by
  simp only [timeSpreadScore]
  split_ifs <;> constructor <;> norm_num

lemma scoreCommitQuality_bounds (commits : List CommitRecord) (tagsCount : ℕ) :
    0 ≤ scoreCommitQuality commits tagsCount ∧ scoreCommitQuality commits tagsCount ≤ 1 := by
  unfold scoreCommitQuality
  by_cases h : commits.length = 0
  · rw [if_pos h]; norm_num
  · rw [if_neg h]
    have hpos : (0 : ℚ) < (commits.length : ℚ) := by
      exact_mod_cast Nat.pos_of_ne_zero h
    have hratio0 : (0 : ℚ) ≤ (commits.countP (fun c => isMeaningful c.message) : ℚ) /
        (commits.length : ℚ) := by positivity
    have hratio1 : (commits.countP (fun c => isMeaningful c.message) : ℚ) /
        (commits.length : ℚ) ≤ 1 := by
      rw [div_le_one hpos]
      exact_mod_cast List.countP_le_length _
    obtain ⟨ht0, ht1⟩ := timeSpreadScore_bounds (validCommitDates commits)
    by_cases htag : 0 < tagsCount <;> simp only [htag, if_true, if_false] <;>
      constructor <;> nlinarith

lemma scoreMaintenance_bounds (now pushedAt : ℚ) (hasIssues : Bool)
    (openIssuesCount : ℕ) :
    0 ≤ scoreMaintenance now pushedAt hasIssues openIssuesCount ∧
    scoreMaintenance now pushedAt hasIssues openIssuesCount ≤ 1 := by
  simp only [scoreMaintenance]
  split_ifs <;> constructor <;> norm_num

lemma scoreStars_bounds {stars maxStars : ℕ} (h1 : 1 ≤ maxStars) (h2 : stars ≤ maxStars) :
    0 ≤ scoreStars stars maxStars ∧ scoreStars stars maxStars ≤ 1 := by
  unfold scoreStars
  split_ifs with h
  · norm_num
  · push_neg at h
    have hb : (0 : ℝ) < Real.log ((maxStars : ℝ) + 1) := by
      apply Real.log_pos
      have : (1 : ℝ) ≤ (maxStars : ℝ) := by exact_mod_cast h1
      linarith
    have ha : (0 : ℝ) ≤ Real.log ((stars : ℝ) + 1) := by
      apply Real.log_nonneg
      have : (0 : ℝ) ≤ (stars : ℝ) := Nat.cast_nonneg _
      linarith
    have hab : Real.log ((stars : ℝ) + 1) ≤ Real.log ((maxStars : ℝ) + 1) := by
      apply Real.log_le_log
      · have : (0 : ℝ) ≤ (stars : ℝ) := Nat.cast_nonneg _
        linarith
      · have : (stars : ℝ) ≤ (maxStars : ℝ) := by exact_mod_cast h2
        linarith
    exact ⟨div_nonneg ha hb.le, (div_le_one hb).mpr hab⟩

lemma scoreForks_bounds {forks maxForks : ℕ} (h1 : 1 ≤ maxForks) (h2 : forks ≤ maxForks) :
    0 ≤ scoreForks forks maxForks ∧ scoreForks forks maxForks ≤ 1 := by
  unfold scoreForks
  split_ifs with h
  · norm_num
  · push_neg at h
    have hb : (0 : ℝ) < Real.log ((maxForks : ℝ) + 1) := by
      apply Real.log_pos
      have : (1 : ℝ) ≤ (maxForks : ℝ) := by exact_mod_cast h1
      linarith
    have ha : (0 : ℝ) ≤ Real.log ((forks : ℝ) + 1) := by
      apply Real.log_nonneg
      have : (0 : ℝ) ≤ (forks : ℝ) := Nat.cast_nonneg _
      linarith
    have hab : Real.log ((forks : ℝ) + 1) ≤ Real.log ((maxForks : ℝ) + 1) := by
      apply Real.log_le_log
      · have : (0 : ℝ) ≤ (forks : ℝ) := Nat.cast_nonneg _
        linarith
      · have : (forks : ℝ) ≤ (maxForks : ℝ) := by exact_mod_cast h2
        linarith
    exact ⟨div_nonneg ha hb.le, (div_le_one hb).mpr hab⟩

/-- The four ordinal complexity buckets (`ComplexityLabel` in `types.ts`). -/
inductive ComplexityLabel
  | veryHigh
  | high
  | medium
  | low
  deriving DecidableEq, Repr

/-- The scored output record (`ProcessedRepo` in `types.ts`); star/fork/
final scores are real because the source computes them with `Math.log`. -/
structure ProcessedRepo where
  name : String
  startDate : ℚ
  endDate : ℚ
  isOngoing : Bool
  primaryLanguage : String
  secondaryLanguage : Option String
  stars : ℕ
  forks : ℕ
  description : Option String
  url : String
  activeBlocks : List ActiveBlock
  activeDays : ℚ
  commitCount : ℕ
  documentationScore : ℚ
  completenessScore : ℚ
  codeQualityScore : ℚ
  commitQualityScore : ℚ
  maintenanceScore : ℚ
  starScore : ℝ
  forkScore : ℝ
  finalScore : ℝ
  complexityScore : ℤ
  complexityLabel : ComplexityLabel
  segments : List (ℚ × ℚ)

/-- The loop of `applyDiversityFilter` (lines 408-415 of `process.ts`):
`langCounts` is the per-language tally so far and `pushed` the number of
admitted repositories (`result.length`); a repository whose language
reached the cap is skipped, and the loop breaks right after the admission
that reaches `finalCount`. -/
def diversityGo (maxPerLang finalCount : ℕ) (langCounts : String → ℕ) (pushed : ℕ) :
    List ProcessedRepo → List ProcessedRepo
  | [] => []
  | repo :: rest =>
    let count := langCounts repo.primaryLanguage
    if maxPerLang ≤ count then diversityGo maxPerLang finalCount langCounts pushed rest
    else if finalCount ≤ pushed + 1 then [repo]
    else
      repo :: diversityGo maxPerLang finalCount
        (fun l => if l = repo.primaryLanguage then count + 1 else langCounts l)
        (pushed + 1) rest

/-- `applyDiversityFilter` from `process.ts`: from a sorted list, pick top
`finalCount` with at most `maxPerLang` per primary language. -/
def applyDiversityFilter (repos : List ProcessedRepo) (maxPerLang finalCount : ℕ) :
    List ProcessedRepo :=
  diversityGo maxPerLang finalCount (fun _ => 0) 0 repos

/-- Modelled from the spec (§4.5): the same greedy cap-respecting pass
without the target-size cutoff.  It is not part of the source; it only
serves to state that the filter's output is a prefix of the unbounded
greedy selection (the no-backfill guarantee). -/
def diversityGreedyAll (maxPerLang : ℕ) (langCounts : String → ℕ) :
    List ProcessedRepo → List ProcessedRepo
  | [] => []
  | repo :: rest =>
    let count := langCounts repo.primaryLanguage
    if maxPerLang ≤ count then diversityGreedyAll maxPerLang langCounts rest
    else
      repo :: diversityGreedyAll maxPerLang
        (fun l => if l = repo.primaryLanguage then count + 1 else langCounts l) rest

lemma diversityGo_sublist (maxPerLang finalCount : ℕ) :
    ∀ (l : List ProcessedRepo) (langCounts : String → ℕ) (pushed : ℕ),
      (diversityGo maxPerLang finalCount langCounts pushed l).Sublist l := by
  intro l
  induction l with
  | nil => intro c p; simp [diversityGo]
  | cons repo rest ih =>
    intro c p
    simp only [diversityGo]
    split_ifs with h1 h2
    · exact (ih c p).cons _
    · simpa using List.Sublist.cons₂ repo (List.nil_sublist rest)
    · exact (ih _ _).cons₂ _

lemma diversityGo_countP (maxPerLang finalCount : ℕ) :
    ∀ (l : List ProcessedRepo) (langCounts : String → ℕ) (pushed : ℕ) (lang : String),
      langCounts lang ≤ maxPerLang →
      (diversityGo maxPerLang finalCount langCounts pushed l).countP
          (fun r => decide (r.primaryLanguage = lang)) + langCounts lang ≤ maxPerLang := by
  intro l
  induction l with
  | nil => intro c p lang hc; simpa [diversityGo] using hc
  | cons repo rest ih =>
    intro c p lang hc
    simp only [diversityGo]
    split_ifs with h1 h2
    · exact ih c p lang hc
    · by_cases hl : repo.primaryLanguage = lang
      · subst hl
        simp only [List.countP_cons, List.countP_nil, decide_eq_true_eq]
        simp
        omega
      · simp only [List.countP_cons, List.countP_nil, decide_eq_true_eq]
        simp [hl]
        omega
    · by_cases hl : repo.primaryLanguage = lang
      · subst hl
        have h := ih (fun l => if l = repo.primaryLanguage then c repo.primaryLanguage + 1
            else c l) (p + 1) repo.primaryLanguage (by simp; omega)
        simp at h
        simp only [List.countP_cons, decide_eq_true_eq]
        simp
        omega
      · have hne : ¬ lang = repo.primaryLanguage := fun he => hl (Eq.symm he)
        have h := ih (fun l => if l = repo.primaryLanguage then c repo.primaryLanguage + 1
            else c l) (p + 1) lang (by simp [hne]; exact hc)
        simp only [if_neg hne] at h
        simp only [List.countP_cons, decide_eq_true_eq]
        simp [hl]
        omega

lemma diversityGo_eq_take_greedy (maxPerLang finalCount : ℕ) :
    ∀ (l : List ProcessedRepo) (langCounts : String → ℕ) (pushed : ℕ),
      diversityGo maxPerLang finalCount langCounts pushed l =
        (diversityGreedyAll maxPerLang langCounts l).take (max (finalCount - pushed) 1) := by
  intro l
  induction l with
  | nil => intro c p; simp [diversityGo, diversityGreedyAll]
  | cons repo rest ih =>
    intro c p
    simp only [diversityGo, diversityGreedyAll]
    split_ifs with h1 h2
    · exact ih c p
    · have hm : max (finalCount - p) 1 = 1 := max_eq_right (by omega)
      rw [hm]
      simp [List.take_succ_cons]
    · have hm : max (finalCount - p) 1 = (max (finalCount - (p + 1)) 1) + 1 := by
        rcases Nat.le_total finalCount (p + 1) with hc | hc
        · omega
        · rw [max_eq_left (by omega), max_eq_left (by omega)]
          omega
      rw [hm, List.take_succ_cons]
      rw [ih _ (p + 1)]

/-- Claim C4: for every score-sorted candidate list, cap, and positive
target size, the diversity selection is a subsequence of its input (so
score order is preserved and nothing is duplicated), no primary language
occurs more than the cap times, the output length is at most the target
size, and the output is exactly the target-size prefix of the unbounded
cap-respecting greedy pass — so a repository skipped at the cap is never
admitted later (no backfill). -/
theorem claim4_diversity_filter (repos : List ProcessedRepo) (maxPerLang finalCount : ℕ)
    (hpos : 0 < finalCount) :
    (applyDiversityFilter repos maxPerLang finalCount).Sublist repos ∧
    (∀ lang, (applyDiversityFilter repos maxPerLang finalCount).countP
        (fun r => decide (r.primaryLanguage = lang)) ≤ maxPerLang) ∧
    (applyDiversityFilter repos maxPerLang finalCount).length ≤ finalCount ∧
    applyDiversityFilter repos maxPerLang finalCount =
      (diversityGreedyAll maxPerLang (fun _ => 0) repos).take finalCount := by
  refine ⟨diversityGo_sublist _ _ _ _ _, ?_, ?_, ?_⟩
  · intro lang
    have h := diversityGo_countP maxPerLang finalCount repos (fun _ => 0) 0 lang (Nat.zero_le _)
    simpa using h
  · have h := diversityGo_eq_take_greedy maxPerLang finalCount repos (fun _ => 0) 0
    unfold applyDiversityFilter
    rw [h, Nat.sub_zero, max_eq_left (by omega)]
    exact List.length_take_le _ _
  · have h := diversityGo_eq_take_greedy maxPerLang finalCount repos (fun _ => 0) 0
    unfold applyDiversityFilter
    rw [h, Nat.sub_zero, max_eq_left (by omega)]

/-- A concrete scored repository used by the C4 witness. -/
def repoC4 : ProcessedRepo :=
  ⟨"demo", 0, 0, false, "TypeScript", none, 0, 0, none, "u", [], 0, 0,
    0, 0, 0, 0, 0, 0, 0, 0, 0, ComplexityLabel.low, []⟩

/-- Witness for C4 at the concrete input `[repoC4]` with cap 2 and target
size 5. -/
theorem claim4_witness :
    0 < 5 ∧ (applyDiversityFilter [repoC4] 2 5).Sublist [repoC4] ∧
    applyDiversityFilter [repoC4] 2 5 =
      (diversityGreedyAll 2 (fun _ => 0) [repoC4]).take 5 :=
  ⟨by norm_num, (claim4_diversity_filter [repoC4] 2 5 (by norm_num)).1,
    (claim4_diversity_filter [repoC4] 2 5 (by norm_num)).2.2.2⟩

/-- Stable descending sort by final score:
`processed.sort((a, b) => b.finalScore - a.finalScore)` (JavaScript's sort
is stable, and `List.insertionSort` realises the stable sort for the
corresponding total preorder). -/
noncomputable def sortByScoreDesc (l : List ProcessedRepo) : List ProcessedRepo :=
  @List.insertionSort ProcessedRepo (fun a b => b.finalScore ≤ a.finalScore)
    (fun a b => Real.decidableLE _ _) l

/-- The selection stage of `processRepos` (lines 612-621): sort by final
score descending, truncate to the 8-candidate pool, then apply the
diversity filter with cap 2 and target `maxRepos`. -/
noncomputable def selectTop (processed : List ProcessedRepo) (maxRepos : ℕ) :
    List ProcessedRepo :=
  applyDiversityFilter ((sortByScoreDesc processed).take 8) 2 maxRepos

/-- Agreement on every `ProcessedRepo` field except `complexityScore` and
`complexityLabel` — i.e. on all fields the sort, truncation, and diversity
selection can read. -/
structure AgreeExceptComplexity (a b : ProcessedRepo) : Prop where
  name : a.name = b.name
  startDate : a.startDate = b.startDate
  endDate : a.endDate = b.endDate
  isOngoing : a.isOngoing = b.isOngoing
  primaryLanguage : a.primaryLanguage = b.primaryLanguage
  secondaryLanguage : a.secondaryLanguage = b.secondaryLanguage
  stars : a.stars = b.stars
  forks : a.forks = b.forks
  description : a.description = b.description
  url : a.url = b.url
  activeBlocks : a.activeBlocks = b.activeBlocks
  activeDays : a.activeDays = b.activeDays
  commitCount : a.commitCount = b.commitCount
  documentationScore : a.documentationScore = b.documentationScore
  completenessScore : a.completenessScore = b.completenessScore
  codeQualityScore : a.codeQualityScore = b.codeQualityScore
  commitQualityScore : a.commitQualityScore = b.commitQualityScore
  maintenanceScore : a.maintenanceScore = b.maintenanceScore
  starScore : a.starScore = b.starScore
  forkScore : a.forkScore = b.forkScore
  finalScore : a.finalScore = b.finalScore
  segments : a.segments = b.segments

lemma orderedInsert_congr {a b : ProcessedRepo} {l₁ l₂ : List ProcessedRepo}
    (hab : AgreeExceptComplexity a b)
    (h : List.Forall₂ AgreeExceptComplexity l₁ l₂) :
    List.Forall₂ AgreeExceptComplexity
      (@List.orderedInsert ProcessedRepo (fun a b => b.finalScore ≤ a.finalScore)
        (fun a b => Real.decidableLE _ _) a l₁)
      (@List.orderedInsert ProcessedRepo (fun a b => b.finalScore ≤ a.finalScore)
        (fun a b => Real.decidableLE _ _) b l₂) := by
  induction h with
  | nil =>
    simpa [List.orderedInsert] using List.Forall₂.cons hab List.Forall₂.nil
  | @cons x y xs ys hxy hl ih =>
    simp only [List.orderedInsert]
    by_cases hc : x.finalScore ≤ a.finalScore
    · rw [if_pos hc, if_pos (by rw [← hxy.finalScore, ← hab.finalScore]; exact hc)]
      exact List.Forall₂.cons hab (List.Forall₂.cons hxy hl)
    · rw [if_neg hc, if_neg (by rw [← hxy.finalScore, ← hab.finalScore]; exact hc)]
      exact List.Forall₂.cons hxy ih

lemma sortByScoreDesc_congr {l₁ l₂ : List ProcessedRepo}
    (h : List.Forall₂ AgreeExceptComplexity l₁ l₂) :
    List.Forall₂ AgreeExceptComplexity (sortByScoreDesc l₁) (sortByScoreDesc l₂) := by
  induction h with
  | nil => exact List.Forall₂.nil
  | @cons x y xs ys hxy hl ih =>
    simpa only [sortByScoreDesc, List.insertionSort] using orderedInsert_congr hxy ih

lemma diversityGo_congr (maxPerLang finalCount : ℕ) :
    ∀ {l₁ l₂ : List ProcessedRepo}, List.Forall₂ AgreeExceptComplexity l₁ l₂ →
      ∀ (langCounts : String → ℕ) (pushed : ℕ),
        List.Forall₂ AgreeExceptComplexity
          (diversityGo maxPerLang finalCount langCounts pushed l₁)
          (diversityGo maxPerLang finalCount langCounts pushed l₂) := by
  intro l₁ l₂ h
  induction h with
  | nil => intro c p; exact List.Forall₂.nil
  | @cons x y xs ys hxy hl ih =>
    intro c p
    simp only [diversityGo, ← hxy.primaryLanguage]
    split_ifs with h1 h2
    · exact ih c p
    · exact List.Forall₂.cons hxy List.Forall₂.nil
    · exact List.Forall₂.cons hxy (ih _ _)

lemma forall₂_map_name {l₁ l₂ : List ProcessedRepo}
    (h : List.Forall₂ AgreeExceptComplexity l₁ l₂) :
    l₁.map ProcessedRepo.name = l₂.map ProcessedRepo.name := by
  induction h with
  | nil => rfl
  | cons hxy hl ih => simp [hxy.name, ih]

/-- Claim C8: the complexity score and label never influence ranking or
elimination: if two runs' scored repositories agree pointwise on every
field except `complexityScore` and `complexityLabel`, then the selection
stage (sort by final score, truncation to the 8-candidate pool, diversity
selection) admits the same repositories in the same order — the outputs
agree pointwise and carry the same names in the same order. -/
theorem claim8_complexity_noninterference (l₁ l₂ : List ProcessedRepo) (maxRepos : ℕ)
    (h : List.Forall₂ AgreeExceptComplexity l₁ l₂) :
    List.Forall₂ AgreeExceptComplexity (selectTop l₁ maxRepos) (selectTop l₂ maxRepos) ∧
    (selectTop l₁ maxRepos).map ProcessedRepo.name =
      (selectTop l₂ maxRepos).map ProcessedRepo.name := by
  have hsel : List.Forall₂ AgreeExceptComplexity (selectTop l₁ maxRepos)
      (selectTop l₂ maxRepos) := by
    unfold selectTop applyDiversityFilter
    exact diversityGo_congr 2 maxRepos
      (List.forall₂_take 8 (sortByScoreDesc_congr h)) (fun _ => 0) 0
  exact ⟨hsel, forall₂_map_name hsel⟩

/-- C8 witness repository with low complexity. -/
def repoC8a : ProcessedRepo :=
  ⟨"demo", 0, 0, false, "TypeScript", none, 0, 0, none, "u", [], 0, 0,
    0, 0, 0, 0, 0, 0, 0, 0, 0, ComplexityLabel.low, []⟩

/-- C8 witness repository: identical to `repoC8a` on everything the
selection reads, but with a very different complexity score and label. -/
def repoC8b : ProcessedRepo :=
  ⟨"demo", 0, 0, false, "TypeScript", none, 0, 0, none, "u", [], 0, 0,
    0, 0, 0, 0, 0, 0, 0, 0, 99, ComplexityLabel.veryHigh, []⟩

/-- Witness for C8 at the concrete singleton runs `[repoC8a]`, `[repoC8b]`
that differ only in complexity. -/
theorem claim8_witness :
    List.Forall₂ AgreeExceptComplexity [repoC8a] [repoC8b] ∧
    (selectTop [repoC8a] 5).map ProcessedRepo.name =
      (selectTop [repoC8b] 5).map ProcessedRepo.name :=
  ⟨List.Forall₂.cons
    ⟨rfl, rfl, rfl, rfl, rfl, rfl, rfl, rfl, rfl, rfl, rfl, rfl, rfl, rfl, rfl,
      rfl, rfl, rfl, rfl, rfl, rfl, rfl⟩ List.Forall₂.nil,
    (claim8_complexity_noninterference [repoC8a] [repoC8b] 5
      (List.Forall₂.cons
        ⟨rfl, rfl, rfl, rfl, rfl, rfl, rfl, rfl, rfl, rfl, rfl, rfl, rfl, rfl, rfl,
          rfl, rfl, rfl, rfl, rfl, rfl, rfl⟩ List.Forall₂.nil)).2⟩

/-- The result of `extractLanguages`. -/
structure LangInfo where
  primary : String
  secondary : Option String
  totalBytes : ℕ
  numLanguages : ℕ
  deriving DecidableEq, Repr

/-- `extractLanguages` from `process.ts`: sort the (language, bytes)
entries by bytes descending (stably, as `Array.prototype.sort` does),
total the bytes, and read off the top two languages. -/
def extractLanguages (languages : List (String × ℕ)) : LangInfo :=
  let sorted := @List.insertionSort (String × ℕ) (fun a b => b.2 ≤ a.2)
    (fun a b => Nat.decLe _ _) languages
  let totalBytes := (sorted.map Prod.snd).sum
  match sorted with
  | [] => ⟨"Unknown", none, 0, 0⟩
  | p :: rest => ⟨p.1, rest.head?.map Prod.fst, totalBytes, (p :: rest).length⟩

/-- Keywords that signal engineering complexity in commit messages
(`COMPLEXITY_KEYWORDS` in `process.ts`). -/
def COMPLEXITY_KEYWORDS : List String :=
  ["refactor", "optimize", "restructure", "performance"]

/-- `computeComplexityScore` from `process.ts` (display feature):
size, breadth, commit-structure, longevity, and maturity components summed,
clamped to [0, 100], rounded, and bucketed into a label. -/
noncomputable def computeComplexityScore (totalBytes numLanguages : ℕ)
    (commitsPerActiveDay : ℚ) (hasComplexityKeywords : Bool) (activeDays : ℚ)
    (activeBlockCount : ℕ) (hasIssues hasProjects hasWiki : Bool) :
    ℤ × ComplexityLabel :=
  let sizeScore : ℝ := min 30 ((Real.logb 10 ((totalBytes : ℝ) + 1)) / 7 * 30)
  let breadthScore : ℝ := min 20 ((numLanguages : ℝ) * 4)
  let densityPart : ℝ := min 10 ((commitsPerActiveDay : ℝ) * 5)
  let keywordPart : ℝ := if hasComplexityKeywords then 10 else 0
  let commitStructureScore : ℝ := min 20 (densityPart + keywordPart)
  let longevityScore : ℝ :=
    min 20 ((activeDays : ℝ) / 365 * 15 + (activeBlockCount : ℝ) * 1)
  let maturityScore : ℝ := (if hasIssues then (3.33 : ℝ) else 0) +
    (if hasProjects then (3.33 : ℝ) else 0) + (if hasWiki then (3.34 : ℝ) else 0)
  let raw := sizeScore + breadthScore + commitStructureScore + longevityScore +
    maturityScore
  let score := round (min (100 : ℝ) (max 0 raw))
  let label :=
    if 75 ≤ score then ComplexityLabel.veryHigh
    else if 50 ≤ score then ComplexityLabel.high
    else if 25 ≤ score then ComplexityLabel.medium
    else ComplexityLabel.low
  (score, label)

/-- `isProjectOngoing` from `process.ts`: pushed within the last 60 days
(`Date.now()` is passed in as `now`). -/
def isProjectOngoing (now pushedAt : ℚ) : Bool :=
  decide ((now - pushedAt) / msPerDay ≤ ONGOING_THRESHOLD_DAYS)

/-- The run-wide star maximum
`Math.max(...withEnrichment.map(({repo}) => repo.stargazers_count), 1)`. -/
def runMaxStars (withEnrichment : List (GitHubRepo × EnrichData)) : ℕ :=
  (withEnrichment.map (fun p => p.1.stargazers_count)).foldr max 1

/-- The run-wide fork maximum, floored at 1 like the star maximum. -/
def runMaxForks (withEnrichment : List (GitHubRepo × EnrichData)) : ℕ :=
  (withEnrichment.map (fun p => p.1.forks_count)).foldr max 1

lemma le_foldr_max (l : List ℕ) (i : ℕ) : ∀ x ∈ l, x ≤ l.foldr max i := by
  induction l with
  | nil => intro x hx; cases hx
  | cons a l ih =>
    intro x hx
    rcases List.mem_cons.mp hx with hx | hx
    · subst hx; exact le_max_left _ _
    · exact (ih x hx).trans (le_max_right _ _)

lemma init_le_foldr_max (l : List ℕ) (i : ℕ) : i ≤ l.foldr max i := by
  induction l with
  | nil => exact le_rfl
  | cons a l ih => exact ih.trans (le_max_right _ _)

lemma one_le_runMaxStars (l : List (GitHubRepo × EnrichData)) : 1 ≤ runMaxStars l :=
  init_le_foldr_max _ _

lemma one_le_runMaxForks (l : List (GitHubRepo × EnrichData)) : 1 ≤ runMaxForks l :=
  init_le_foldr_max _ _

lemma stars_le_runMaxStars (l : List (GitHubRepo × EnrichData)) :
    ∀ p ∈ l, p.1.stargazers_count ≤ runMaxStars l := by
  intro p hp
  exact le_foldr_max _ _ _ (List.mem_map_of_mem _ hp)

lemma forks_le_runMaxForks (l : List (GitHubRepo × EnrichData)) :
    ∀ p ∈ l, p.1.forks_count ≤ runMaxForks l := by
  intro p hp
  exact le_foldr_max _ _ _ (List.mem_map_of_mem _ hp)

/-- The per-repository body of `processRepos` (lines 484-609): assemble one
`ProcessedRepo` from a surviving snapshot, its enrichment bundle, the
run-wide maxima, and the current time. -/
noncomputable def buildProcessedRepo (now : ℚ) (maxStars maxForks : ℕ)
    (repo : GitHubRepo) (data : EnrichData) : ProcessedRepo :=
  let langInfo := extractLanguages data.languages
  let commitDates := validCommitDates data.commits
  let blocksDays := buildActiveBlocks commitDates
  let blocks := blocksDays.1
  let activeDays := blocksDays.2
  let commitCount := data.commits.length
  let ongoing := isProjectOngoing now repo.pushed_at
  let startDate := match blocks with
    | [] => repo.created_at
    | b :: _ => b.start
  let endDate := if ongoing then now else
    match blocks.getLast? with
    | some b => b.stop
    | none => repo.pushed_at
  let rootFiles := (data.rootContents.filter (fun i => i.type == "file")).map
    (fun i => toLowerStr i.name)
  let rootDirs := (data.rootContents.filter (fun i => i.type == "dir")).map
    (fun i => toLowerStr i.name)
  let documentationScore := scoreDocumentation data.readmeInfo.exists_
    data.readmeInfo.length data.readmeInfo.hasUsageSection repo.license.isSome
  let completenessScore := scoreCompleteness rootFiles rootDirs
  let codeQualityScore := scoreCodeQuality rootFiles rootDirs
  let commitQualityScore := scoreCommitQuality data.commits data.tagsCount
  let maintenanceScore := scoreMaintenance now repo.pushed_at repo.has_issues
    (repo.open_issues_count.getD 0)
  let starScoreVal := scoreStars repo.stargazers_count maxStars
  let forkScoreVal := scoreForks repo.forks_count maxForks
  let finalScore : ℝ :=
    (0.25 * (documentationScore : ℝ) + 0.20 * (completenessScore : ℝ) +
      0.20 * (codeQualityScore : ℝ) + 0.10 * (commitQualityScore : ℝ) +
      0.10 * (maintenanceScore : ℝ) + 0.10 * starScoreVal +
      0.05 * forkScoreVal) * 100
  let safeActiveDays := max 1 activeDays
  let density := (commitCount : ℚ) / safeActiveDays
  let hasComplexityKeywords := data.commits.any (fun c =>
    COMPLEXITY_KEYWORDS.any (fun kw => strIncludes (toLowerStr c.message) kw))
  let complexity := computeComplexityScore langInfo.totalBytes
    langInfo.numLanguages density hasComplexityKeywords activeDays blocks.length
    repo.has_issues repo.has_projects repo.has_wiki
  { name := repo.name
    startDate := startDate
    endDate := endDate
    isOngoing := ongoing
    primaryLanguage := langInfo.primary
    secondaryLanguage := langInfo.secondary
    stars := repo.stargazers_count
    forks := repo.forks_count
    description := repo.description
    url := repo.html_url
    activeBlocks := blocks
    activeDays := activeDays
    commitCount := commitCount
    documentationScore := documentationScore
    completenessScore := completenessScore
    codeQualityScore := codeQualityScore
    commitQualityScore := commitQualityScore
    maintenanceScore := maintenanceScore
    starScore := starScoreVal
    forkScore := forkScoreVal
    finalScore := ((round (finalScore * 100) : ℤ) : ℝ) / 100
    complexityScore := complexity.1
    complexityLabel := complexity.2
    segments := blocks.map (fun b => (b.start, b.stop)) }

/-- `processRepos` from `process.ts`, with the asynchronous enrichment
fetches modelled as a pure per-repository lookup `enrich` (each fetch
already carries its own fallback defaults) and `Date.now()` as `now`:
hard-eliminate, enrich, score, sort, truncate to 8, diversify. -/
noncomputable def processRepos (repos : List GitHubRepo)
    (enrich : GitHubRepo → EnrichData) (username : String) (maxRepos : ℕ)
    (now : ℚ) : List ProcessedRepo :=
  let filtered := hardFilterRepos repos username
  if filtered = [] then []
  else
    let withEnrichment := filtered.map (fun r => (r, enrich r))
    let maxStars := runMaxStars withEnrichment
    let maxForks := runMaxForks withEnrichment
    let processed := withEnrichment.map
      (fun p => buildProcessedRepo now maxStars maxForks p.1 p.2)
    selectTop processed maxRepos

lemma selectTop_subset (l : List ProcessedRepo) (m : ℕ) :
    ∀ r ∈ selectTop l m, r ∈ l := by
  intro r hr
  have h1 : r ∈ (sortByScoreDesc l).take 8 :=
    (diversityGo_sublist 2 m _ _ _).subset hr
  have h2 : r ∈ sortByScoreDesc l := List.take_subset _ _ h1
  exact (List.perm_insertionSort _ l).subset h2

lemma round_div100_bounds {x : ℝ} (h0 : 0 ≤ x) (h1 : x ≤ 100) :
    0 ≤ ((round (x * 100) : ℤ) : ℝ) / 100 ∧ ((round (x * 100) : ℤ) : ℝ) / 100 ≤ 100 := by
  have e : round (x * 100) = ⌊x * 100 + 1 / 2⌋ := round_eq _
  have lb : (0 : ℤ) ≤ round (x * 100) := by
    rw [e, Int.le_floor]
    push_cast
    linarith
  have ub : round (x * 100) ≤ 10000 := by
    rw [e]
    have hf : (⌊x * 100 + 1 / 2⌋ : ℝ) ≤ x * 100 + 1 / 2 := Int.floor_le _
    have h2 : (⌊x * 100 + 1 / 2⌋ : ℝ) < 10001 := by linarith
    have h3 : ⌊x * 100 + 1 / 2⌋ < (10001 : ℤ) := by exact_mod_cast h2
    omega
  constructor
  · apply div_nonneg _ (by norm_num)
    exact_mod_cast lb
  · rw [div_le_iff₀ (by norm_num : (0:ℝ) < 100)]
    have h4 : ((round (x * 100) : ℤ) : ℝ) ≤ 10000 := by exact_mod_cast ub
    linarith

/-- Claim C3: every `ScoredRepository` produced by `processRepos` has its
seven sub-scores in [0, 1], and its final score equals 100 times the
weighted sum of the sub-scores with the fixed weights 0.25, 0.20, 0.20,
0.10, 0.10, 0.10, 0.05, rounded to two decimals, hence lies in [0, 100]. -/
theorem claim3_scores_bounded (repos : List GitHubRepo)
    (enrich : GitHubRepo → EnrichData) (username : String) (maxRepos : ℕ)
    (now : ℚ) (r : ProcessedRepo)
    (hr : r ∈ processRepos repos enrich username maxRepos now) :
    (0 ≤ r.documentationScore ∧ r.documentationScore ≤ 1) ∧
    (0 ≤ r.completenessScore ∧ r.completenessScore ≤ 1) ∧
    (0 ≤ r.codeQualityScore ∧ r.codeQualityScore ≤ 1) ∧
    (0 ≤ r.commitQualityScore ∧ r.commitQualityScore ≤ 1) ∧
    (0 ≤ r.maintenanceScore ∧ r.maintenanceScore ≤ 1) ∧
    (0 ≤ r.starScore ∧ r.starScore ≤ 1) ∧
    (0 ≤ r.forkScore ∧ r.forkScore ≤ 1) ∧
    r.finalScore = ((round ((100 * (0.25 * (r.documentationScore : ℝ) +
        0.20 * (r.completenessScore : ℝ) + 0.20 * (r.codeQualityScore : ℝ) +
        0.10 * (r.commitQualityScore : ℝ) + 0.10 * (r.maintenanceScore : ℝ) +
        0.10 * r.starScore + 0.05 * r.forkScore)) * 100) : ℤ) : ℝ) / 100 ∧
    (0 ≤ r.finalScore ∧ r.finalScore ≤ 100) := by
  simp only [processRepos] at hr
  by_cases hf : hardFilterRepos repos username = []
  · rw [if_pos hf] at hr
    cases hr
  · rw [if_neg hf] at hr
    have hr' := selectTop_subset _ _ r hr
    obtain ⟨p, hp, rfl⟩ := List.mem_map.mp hr'
    have h1s := one_le_runMaxStars ((hardFilterRepos repos username).map
      (fun r => (r, enrich r)))
    have h1f := one_le_runMaxForks ((hardFilterRepos repos username).map
      (fun r => (r, enrich r)))
    have h2s := stars_le_runMaxStars _ p hp
    have h2f := forks_le_runMaxForks _ p hp
    obtain ⟨hs0, hs1⟩ := scoreStars_bounds h1s h2s
    obtain ⟨hfk0, hfk1⟩ := scoreForks_bounds h1f h2f
    obtain ⟨hd0, hd1⟩ := scoreDocumentation_bounds p.2.readmeInfo.exists_
      p.2.readmeInfo.length p.2.readmeInfo.hasUsageSection p.1.license.isSome
    obtain ⟨hc0, hc1⟩ := scoreCompleteness_bounds
      ((p.2.rootContents.filter (fun i => i.type == "file")).map (fun i => toLowerStr i.name))
      ((p.2.rootContents.filter (fun i => i.type == "dir")).map (fun i => toLowerStr i.name))
    obtain ⟨hq0, hq1⟩ := scoreCodeQuality_bounds
      ((p.2.rootContents.filter (fun i => i.type == "file")).map (fun i => toLowerStr i.name))
      ((p.2.rootContents.filter (fun i => i.type == "dir")).map (fun i => toLowerStr i.name))
    obtain ⟨hg0, hg1⟩ := scoreCommitQuality_bounds p.2.commits p.2.tagsCount
    obtain ⟨hmn0, hmn1⟩ := scoreMaintenance_bounds now p.1.pushed_at p.1.has_issues
      (p.1.open_issues_count.getD 0)
    have hd0' : (0:ℝ) ≤ ((scoreDocumentation p.2.readmeInfo.exists_
        p.2.readmeInfo.length p.2.readmeInfo.hasUsageSection p.1.license.isSome : ℚ) : ℝ) := by
      exact_mod_cast hd0
    have hd1' : ((scoreDocumentation p.2.readmeInfo.exists_ p.2.readmeInfo.length
        p.2.readmeInfo.hasUsageSection p.1.license.isSome : ℚ) : ℝ) ≤ 1 := by
      exact_mod_cast hd1
    have hc0' : (0:ℝ) ≤ ((scoreCompleteness
        ((p.2.rootContents.filter (fun i => i.type == "file")).map (fun i => toLowerStr i.name))
        ((p.2.rootContents.filter (fun i => i.type == "dir")).map (fun i => toLowerStr i.name)) : ℚ) : ℝ) := by
      exact_mod_cast hc0
    have hc1' : ((scoreCompleteness
        ((p.2.rootContents.filter (fun i => i.type == "file")).map (fun i => toLowerStr i.name))
        ((p.2.rootContents.filter (fun i => i.type == "dir")).map (fun i => toLowerStr i.name)) : ℚ) : ℝ) ≤ 1 := by
      exact_mod_cast hc1
    have hq0' : (0:ℝ) ≤ ((scoreCodeQuality
        ((p.2.rootContents.filter (fun i => i.type == "file")).map (fun i => toLowerStr i.name))
        ((p.2.rootContents.filter (fun i => i.type == "dir")).map (fun i => toLowerStr i.name)) : ℚ) : ℝ) := by
      exact_mod_cast hq0
    have hq1' : ((scoreCodeQuality
        ((p.2.rootContents.filter (fun i => i.type == "file")).map (fun i => toLowerStr i.name))
        ((p.2.rootContents.filter (fun i => i.type == "dir")).map (fun i => toLowerStr i.name)) : ℚ) : ℝ) ≤ 1 := by
      exact_mod_cast hq1
    have hg0' : (0:ℝ) ≤ ((scoreCommitQuality p.2.commits p.2.tagsCount : ℚ) : ℝ) := by
      exact_mod_cast hg0
    have hg1' : ((scoreCommitQuality p.2.commits p.2.tagsCount : ℚ) : ℝ) ≤ 1 := by
      exact_mod_cast hg1
    have hmn0' : (0:ℝ) ≤ ((scoreMaintenance now p.1.pushed_at p.1.has_issues
        (p.1.open_issues_count.getD 0) : ℚ) : ℝ) := by
      exact_mod_cast hmn0
    have hmn1' : ((scoreMaintenance now p.1.pushed_at p.1.has_issues
        (p.1.open_issues_count.getD 0) : ℚ) : ℝ) ≤ 1 := by
      exact_mod_cast hmn1
    refine ⟨⟨hd0, hd1⟩, ⟨hc0, hc1⟩, ⟨hq0, hq1⟩, ⟨hg0, hg1⟩, ⟨hmn0, hmn1⟩,
      ⟨hs0, hs1⟩, ⟨hfk0, hfk1⟩, ?_, ?_⟩
    · simp only [buildProcessedRepo]
      exact congrArg (fun z : ℤ => ((z : ℝ) / 100)) (congrArg round (by push_cast; ring))
    · exact round_div100_bounds (by nlinarith) (by nlinarith)

/-- The snapshot used by the C3 and C10 witnesses: a 150 KB, non-fork,
non-archived repository named differently from the account. -/
def repoW : GitHubRepo :=
  ⟨"proj", 0, 0, false, false, 150, 0, 0, false, false, false, none, none, none, "u"⟩

/-- The (empty-ish) enrichment bundle used by the C3 and C10 witnesses. -/
def dataW : EnrichData := ⟨[], [], ⟨false, 0, false⟩, 0, []⟩

lemma processReposW :
    processRepos [repoW] (fun _ => dataW) "user" 5 0 =
      [buildProcessedRepo 0 1 1 repoW dataW] := rfl

lemma memW :
    buildProcessedRepo 0 1 1 repoW dataW ∈ processRepos [repoW] (fun _ => dataW) "user" 5 0 := by
  rw [processReposW]
  exact List.mem_cons_self _ _

/-- Witness for C3 at a concrete one-repository run. -/
theorem claim3_witness :
    buildProcessedRepo 0 1 1 repoW dataW ∈ processRepos [repoW] (fun _ => dataW) "user" 5 0 ∧
    (0 ≤ (buildProcessedRepo 0 1 1 repoW dataW).finalScore ∧
      (buildProcessedRepo 0 1 1 repoW dataW).finalScore ≤ 100) :=
  ⟨memW, (claim3_scores_bounded [repoW] (fun _ => dataW) "user" 5 0 _ memW).2.2.2.2.2.2.2.2⟩

/-- Claim C7: the core pipeline is total over its documented input domain —
every division site has a positive (hence nonzero) denominator: the
run-wide max-star and max-fork denominators are floored at 1 and dominate
every candidate's counts, the active-day denominator is floored at 1 before
the commit-density division, the commit-quality ratio is guarded by the
empty-list check, and the resulting star/fork and commit-quality scores are
well-defined finite values in [0, 1]. -/
theorem claim7_totality :
    (∀ l : List (GitHubRepo × EnrichData), 1 ≤ runMaxStars l ∧ 1 ≤ runMaxForks l ∧
      ∀ p ∈ l, p.1.stargazers_count ≤ runMaxStars l ∧ p.1.forks_count ≤ runMaxForks l) ∧
    (∀ dates : List ℚ, 0 < max 1 (buildActiveBlocks dates).2) ∧
    (∀ tagsCount : ℕ, scoreCommitQuality [] tagsCount = 0) ∧
    (∀ (commits : List CommitRecord) (tagsCount : ℕ),
      0 ≤ scoreCommitQuality commits tagsCount ∧ scoreCommitQuality commits tagsCount ≤ 1) ∧
    (∀ stars maxStars : ℕ, 1 ≤ maxStars → stars ≤ maxStars →
      Real.log ((maxStars : ℝ) + 1) ≠ 0 ∧
      0 ≤ scoreStars stars maxStars ∧ scoreStars stars maxStars ≤ 1) ∧
    (∀ forks maxForks : ℕ, 1 ≤ maxForks → forks ≤ maxForks →
      Real.log ((maxForks : ℝ) + 1) ≠ 0 ∧
      0 ≤ scoreForks forks maxForks ∧ scoreForks forks maxForks ≤ 1) := by
  refine ⟨?_, ?_, ?_, ?_, ?_, ?_⟩
  · intro l
    exact ⟨one_le_runMaxStars l, one_le_runMaxForks l,
      fun p hp => ⟨stars_le_runMaxStars l p hp, forks_le_runMaxForks l p hp⟩⟩
  · intro dates
    exact lt_of_lt_of_le one_pos (le_max_left _ _)
  · intro tagsCount
    simp [scoreCommitQuality]
  · intro commits tagsCount
    exact scoreCommitQuality_bounds commits tagsCount
  · intro stars maxStars h1 h2
    refine ⟨?_, scoreStars_bounds h1 h2⟩
    have : (0:ℝ) < Real.log ((maxStars : ℝ) + 1) := by
      apply Real.log_pos
      have : (1 : ℝ) ≤ (maxStars : ℝ) := by exact_mod_cast h1
      linarith
    exact this.ne'
  · intro forks maxForks h1 h2
    refine ⟨?_, scoreForks_bounds h1 h2⟩
    have : (0:ℝ) < Real.log ((maxForks : ℝ) + 1) := by
      apply Real.log_pos
      have : (1 : ℝ) ≤ (maxForks : ℝ) := by exact_mod_cast h1
      linarith
    exact this.ne'

/-- Witness for C7 at concrete inputs, discharging the `1 ≤ maxStars` and
`stars ≤ maxStars` hypotheses at stars = 0, maxStars = 1. -/
theorem claim7_witness :
    1 ≤ runMaxStars [] ∧ scoreCommitQuality [] 3 = 0 ∧
    0 < max 1 (buildActiveBlocks []).2 ∧
    (0 ≤ scoreStars 0 1 ∧ scoreStars 0 1 ≤ 1) ∧
    (0 ≤ scoreForks 0 1 ∧ scoreForks 0 1 ≤ 1) :=
  ⟨(claim7_totality.1 []).1, claim7_totality.2.2.1 3, claim7_totality.2.1 [],
    (claim7_totality.2.2.2.2.1 0 1 le_rfl (Nat.zero_le 1)).2,
    (claim7_totality.2.2.2.2.2 0 1 le_rfl (Nat.zero_le 1)).2⟩

/-- Claim C10: when enrichment yields no parseable commit timestamps, the
per-repository stage produces an empty active-block list and
`activeDays = 0` (no degenerate fallback block), sets `startDate` to the
snapshot's `created_at`, and sets `endDate` to `pushed_at` — except that
`endDate` is the current time exactly when the push lies within the last
60 days (the ongoing test). -/
theorem claim10_empty_commit_fallback (now : ℚ) (maxStars maxForks : ℕ)
    (repo : GitHubRepo) (data : EnrichData)
    (h : validCommitDates data.commits = []) :
    (buildProcessedRepo now maxStars maxForks repo data).activeBlocks = [] ∧
    (buildProcessedRepo now maxStars maxForks repo data).activeDays = 0 ∧
    (buildProcessedRepo now maxStars maxForks repo data).startDate = repo.created_at ∧
    ((buildProcessedRepo now maxStars maxForks repo data).isOngoing = true ↔
      (now - repo.pushed_at) / msPerDay ≤ ONGOING_THRESHOLD_DAYS) ∧
    ((now - repo.pushed_at) / msPerDay ≤ ONGOING_THRESHOLD_DAYS →
      (buildProcessedRepo now maxStars maxForks repo data).endDate = now) ∧
    (¬ (now - repo.pushed_at) / msPerDay ≤ ONGOING_THRESHOLD_DAYS →
      (buildProcessedRepo now maxStars maxForks repo data).endDate = repo.pushed_at) := by
  have hb : buildActiveBlocks (validCommitDates data.commits) = ([], 0) := by
    rw [h]
    rfl
  refine ⟨?_, ?_, ?_, ?_, ?_, ?_⟩
  · show (buildActiveBlocks (validCommitDates data.commits)).1 = []
    rw [hb]
  · show (buildActiveBlocks (validCommitDates data.commits)).2 = 0
    rw [hb]
  · simp only [buildProcessedRepo, hb]
  · simp only [buildProcessedRepo, isProjectOngoing, decide_eq_true_eq]
  · intro hc
    simp only [buildProcessedRepo, isProjectOngoing, hb, decide_eq_true_eq, if_pos hc]
  · intro hc
    simp only [buildProcessedRepo, isProjectOngoing, hb, decide_eq_true_eq, if_neg hc]
    rfl

/-- Witness for C10 at a concrete repository with no commits, pushed at the
current instant (hence ongoing). -/
theorem claim10_witness :
    validCommitDates dataW.commits = [] ∧
    (buildProcessedRepo 0 1 1 repoW dataW).activeBlocks = [] ∧
    (buildProcessedRepo 0 1 1 repoW dataW).activeDays = 0 ∧
    (buildProcessedRepo 0 1 1 repoW dataW).startDate = repoW.created_at ∧
    (buildProcessedRepo 0 1 1 repoW dataW).endDate = 0 :=
  ⟨rfl, (claim10_empty_commit_fallback 0 1 1 repoW dataW rfl).1,
    (claim10_empty_commit_fallback 0 1 1 repoW dataW rfl).2.1,
    (claim10_empty_commit_fallback 0 1 1 repoW dataW rfl).2.2.1,
    (claim10_empty_commit_fallback 0 1 1 repoW dataW rfl).2.2.2.2.1
      (by norm_num [repoW, msPerDay, ONGOING_THRESHOLD_DAYS])⟩

end GitRepo
